import Mathlib

/-!
Verification of the core of the `shotgun_code` repository: the Go sources
(embedded in `fix.py`) for the file-tree builder with ignore-rule pruning
(`fsscanner/builder.go`), the atomic artifact writers
(`pdfgen/gofpdf_generator.go` `WriteAtomic`, `archiver/zip_archiver.go`
`ZipFilesAtomic`), and the PDF text-processing helpers
(`replaceUnsupported`, `softWrapLongLines`).

Go strings are modelled as lists of characters (`GoStr`), byte buffers as
lists of naturals (`Bytes`), Go maps as association lists, and the
filesystem touched by the atomic writers as an association list from paths
to byte contents.  Compiled gitignore matchers (the external
`go-gitignore` library) are opaque predicates `GoStr → Bool`.
-/

/-- Model of a Go string / filesystem path: a list of characters. -/
abbrev GoStr := List Char

/-- Model of a Go byte slice. -/
abbrev Bytes := List Nat

/-- A compiled ignore matcher (`*gitignore.GitIgnore`): an opaque predicate
on a relative path, as used via `MatchesPath`. -/
abbrev Matcher := GoStr → Bool

/-- Concatenation of the images of `f` over a list (Go-style building of an
output string piece by piece). -/
def cmap (f : α → List β) : List α → List β
  | [] => []
  | a :: l => f a ++ cmap f l

/-- Association-list lookup, first match wins (models Go map indexing and
the builder caches). -/
def lookupA (l : List (GoStr × α)) (key : GoStr) : Option α :=
  match l with
  | [] => none
  | (k, v) :: rest => if k = key then some v else lookupA rest key

/-- Remove every binding of `key` (models `os.Remove` on the
filesystem model). -/
def removeA : List (GoStr × α) → GoStr → List (GoStr × α)
  | [], _ => []
  | kv :: rest, key =>
    if kv.1 = key then removeA rest key else kv :: removeA rest key

/-- Overwrite the binding of `key` (models a file write). -/
def setA (l : List (GoStr × α)) (key : GoStr) (v : α) : List (GoStr × α) :=
  (key, v) :: removeA l key

/-- Byte-wise lexicographic strict order on char lists: the order behind
Go's `<` on `string` as used by `sort.Strings` and the child comparator. -/
def lexLt : GoStr → GoStr → Bool
  | _, [] => false
  | [], _ :: _ => true
  | a :: as, b :: bs => if a < b then true else if b < a then false else lexLt as bs

/-- `strings.Split(s, sep)` for a one-character separator. -/
def splitOn (c : Char) : GoStr → List GoStr
  | [] => [[]]
  | x :: xs =>
    let r := splitOn c xs
    if x = c then [] :: r
    else
      match r with
      | [] => [[x]]
      | h :: t => (x :: h) :: t

/-- Join a list of lines with a separator (specification-side inverse of
`splitOn`, used to state properties of the wrapper). -/
def interc (sep : GoStr) : List GoStr → GoStr
  | [] => []
  | [x] => x
  | x :: y :: rest => x ++ sep ++ interc sep (y :: rest)

/-- `strings.TrimSuffix(s, "\n")`: drop one trailing newline if present. -/
def trimSuffixNL (l : GoStr) : GoStr :=
  if l.getLast? = some '\n' then l.dropLast else l

/-- Go `unicode.IsSpace`: the White_Space code points. -/
def goIsSpace (c : Char) : Bool :=
  (0x09 ≤ c.toNat && c.toNat ≤ 0x0D) || c.toNat = 0x20 || c.toNat = 0x85 ||
  c.toNat = 0xA0 || c.toNat = 0x1680 ||
  (0x2000 ≤ c.toNat && c.toNat ≤ 0x200A) || c.toNat = 0x2028 ||
  c.toNat = 0x2029 || c.toNat = 0x202F || c.toNat = 0x205F || c.toNat = 0x3000

/-- `strings.TrimSpace`: drop leading and trailing white space. -/
def trimSpace (l : GoStr) : GoStr :=
  ((l.dropWhile goIsSpace).reverse.dropWhile goIsSpace).reverse

/-- `fileTreeBuilder.getCustomIgnore`, normalization part: replace CRLF with
LF, split on newlines, trim each line, keep non-empty non-comment lines. -/
def replaceCRLF : GoStr → GoStr
  | [] => []
  | [c] => [c]
  | c1 :: c2 :: rest =>
    if c1 = '\r' ∧ c2 = '\n' then '\n' :: replaceCRLF rest
    else c1 :: replaceCRLF (c2 :: rest)

/-- Does a line start with `#` (`strings.HasPrefix(line, "#")`)? -/
def startsHash : GoStr → Bool
  | '#' :: _ => true
  | _ => false

/-- The `trimmed` line list computed by `getCustomIgnore`. -/
def normalizeRules (rules : GoStr) : List GoStr :=
  ((splitOn '\n' (replaceCRLF rules)).map trimSpace).filter
    (fun line => !(line.isEmpty) && !(startsHash line))

/-- `fileTreeBuilder.getCustomIgnore`: state is the pair
(customCache, customHash); `compileLines` models
`gitignore.CompileIgnoreLines`.  Returns the matcher handed to the caller
together with the updated cache state. -/
def getCustomIgnore (compileLines : List GoStr → Matcher)
    (customCache : Option Matcher) (customHash : GoStr) (rules : GoStr) :
    Option Matcher × Option Matcher × GoStr :=
  let trimmed := normalizeRules rules
  let hash := interc ['\n'] trimmed
  match customCache with
  | some cc =>
    if customHash = hash then (some cc, some cc, customHash)
    else if trimmed.isEmpty then (none, some cc, customHash)
    else
      let ci := compileLines trimmed
      (some ci, some ci, hash)
  | none =>
    if trimmed.isEmpty then (none, none, customHash)
    else
      let ci := compileLines trimmed
      (some ci, some ci, hash)

/-- `fileTreeBuilder.getGitignore`: `cache` models `giCache`, `compile`
models `gitignore.CompileIgnoreFile(filepath.Join(root, ".gitignore"))`
(returning `none` on a read or parse error).  Returns the matcher (or
`none`) and the updated cache. -/
def getGitignore (cache : List (GoStr × Matcher)) (root : GoStr)
    (compile : GoStr → Option Matcher) : Option Matcher × List (GoStr × Matcher) :=
  match lookupA cache root with
  | some gi => (some gi, cache)
  | none =>
    match compile root with
    | none => (none, cache)
    | some ig => (some ig, (root, ig) :: cache)

/-- `gi != nil && gi.MatchesPath(p)`. -/
def matchesOpt (m : Option Matcher) (p : GoStr) : Bool :=
  match m with
  | none => false
  | some f => f p

/-- A directory entry of the filesystem being walked: either a file with a
size or a directory with entries. -/
inductive FSEntry where
  | file (name : GoStr) (size : Nat)
  | dir (name : GoStr) (entries : List FSEntry)


/-- Name (`d.Name()`) of a filesystem entry. -/
def entryName : FSEntry → GoStr
  | .file n _ => n
  | .dir n _ => n

/-- Well-formedness of a filesystem: sibling names are distinct, and every
name is a nonempty single path segment (no separator in it, and never the
self-reference `"."`) — true of any real directory listing as produced by
`WalkDir` / `d.Name()`. -/
def wfFS : List FSEntry → Bool
  | [] => true
  | .file n _ :: es =>
    !(n.isEmpty) && !(n.contains '/') && !(n == ['.']) &&
      !((es.map entryName).contains n) && wfFS es
  | .dir n cs :: es =>
    !(n.isEmpty) && !(n.contains '/') && !(n == ['.']) &&
      !((es.map entryName).contains n) && wfFS cs && wfFS es

/-- `domain.FileNode` (the `GoStr` field with the absolute path is
`dirPath + separator + relPath` and is omitted as derivable). -/
inductive FileNode where
  | mk (name : GoStr) (relPath : GoStr) (isDir : Bool) (isGitignored : Bool)
      (isCustomIgnored : Bool) (size : Nat) (children : List FileNode)


def FileNode.name : FileNode → GoStr
  | .mk n _ _ _ _ _ _ => n

def FileNode.relPath : FileNode → GoStr
  | .mk _ r _ _ _ _ _ => r

def FileNode.isDir : FileNode → Bool
  | .mk _ _ d _ _ _ _ => d

def FileNode.isGitignored : FileNode → Bool
  | .mk _ _ _ g _ _ _ => g

def FileNode.isCustomIgnored : FileNode → Bool
  | .mk _ _ _ _ c _ _ => c

def FileNode.size : FileNode → Nat
  | .mk _ _ _ _ _ s _ => s

def FileNode.children : FileNode → List FileNode
  | .mk _ _ _ _ _ _ cs => cs

/-- ASCII model of `strings.ToLower` applied character-wise. -/
def lowerP (p : GoStr) : GoStr := p.map Char.toLower

/-- The comparator passed to `sort.Slice` over a node's children:
directories first, then case-insensitive name order. -/
def nodeLess (a b : FileNode) : Bool :=
  if a.isDir ≠ b.isDir then a.isDir else lexLt (lowerP a.name) (lowerP b.name)

/-- Insert `a` into `l` before the first element `b` with `le a b`. -/
def insertBy (le : α → α → Bool) (a : α) : List α → List α
  | [] => [a]
  | b :: bs => if le a b then a :: b :: bs else b :: insertBy le a bs

/-- Insertion sort by a boolean "less-or-equivalent" test: the model of the
result of `sort.Slice`/`sort.Strings` (any correct sort produces a sorted
permutation; tie order is unspecified in Go). -/
def sortBy (le : α → α → Bool) : List α → List α
  | [] => []
  | a :: as => insertBy le a (sortBy le as)

/-- The sort pass applied to every node's child slice at the end of
`BuildTree`: sorted so that `nodeLess` never holds backwards. -/
def sortNodes (l : List FileNode) : List FileNode :=
  sortBy (fun a b => !(nodeLess b a)) l

/-- The `filepath.WalkDir` callback of `BuildTree`, applied recursively to
a directory listing.  `pre` is the relative-path prefix (empty at top
level, `parentRel ++ "/"` below), so that an entry named `n` has
`relPath = pre ++ n`.  A directory whose match path (relative path plus
trailing separator) is matched by either matcher is skipped whole
(`fs.SkipDir` is returned before any node is created for it); every other
entry is recorded, files carrying both ignore flags and their size.
Children are sorted as by the terminal sort pass. -/
def walkList (gi ci : Option Matcher) (pre : GoStr) : List FSEntry → List FileNode
  | [] => []
  | .file n sz :: es =>
    FileNode.mk n (pre ++ n) false (matchesOpt gi (pre ++ n))
      (matchesOpt ci (pre ++ n)) sz [] :: walkList gi ci pre es
  | .dir n cs :: es =>
    if matchesOpt gi (pre ++ n ++ ['/']) || matchesOpt ci (pre ++ n ++ ['/']) then
      walkList gi ci pre es
    else
      FileNode.mk n (pre ++ n) true false false 0
        (sortNodes (walkList gi ci (pre ++ n ++ ['/']) cs)) :: walkList gi ci pre es

/-- `fileTreeBuilder.BuildTree` on an in-memory directory listing: the
returned single-element slice holding the root node (relative path `"."`),
its children the recorded entries of the root directory, every child slice
sorted. -/
def buildTree (gi ci : Option Matcher) (rootName : GoStr) (es : List FSEntry) :
    List FileNode :=
  [FileNode.mk rootName ['.'] true false false 0 (sortNodes (walkList gi ci [] es))]

mutual

/-- All nodes of a tree (the node itself and, recursively, its children):
the contents of `nodesMap` restricted to the returned tree. -/
def allNodes : FileNode → List FileNode
  | .mk n rel d g c sz cs => .mk n rel d g c sz cs :: allNodesL cs

def allNodesL : List FileNode → List FileNode
  | [] => []
  | x :: xs => allNodes x ++ allNodesL xs

end

/-- Relative paths of all nodes of a tree. -/
def pathsOfL (l : List FileNode) : List GoStr :=
  (allNodesL l).map FileNode.relPath

/-- All entries reachable under a listing, with the relative path the walk
would assign them: `(pre ++ name, entry)` for each entry, recursing into
directories with prefix `pre ++ name ++ "/"`. -/
def subpaths (pre : GoStr) : List FSEntry → List (GoStr × FSEntry)
  | [] => []
  | .file n sz :: es => (pre ++ n, .file n sz) :: subpaths pre es
  | .dir n cs :: es =>
    (pre ++ n, .dir n cs) :: (subpaths (pre ++ n ++ ['/']) cs ++ subpaths pre es)

/-- Is the directory with relative path `q` matched by one of the two
matchers (match paths of directories carry a trailing separator)? -/
def ignDir (gi ci : Option Matcher) (q : GoStr) : Bool :=
  matchesOpt gi (q ++ ['/']) || matchesOpt ci (q ++ ['/'])

/-- The atomic-write protocol shared by `GofpdfGenerator.WriteAtomic` and
`ZipArchiver.ZipFilesAtomic` over the filesystem model: create a unique
temporary file in the destination directory, write the buffer, close,
rename onto the destination, with `defer os.Remove(tmpPath)` running on
every exit path.  The three booleans inject a failure at the write, close
or rename step.  Returns success together with the final filesystem. -/
def writeAtomic (fs : List (GoStr × Bytes)) (dst tmp : GoStr) (content : Bytes)
    (failWrite failClose failRename : Bool) : Bool × List (GoStr × Bytes) :=
  let fs1 := setA fs tmp []
  if failWrite then (false, removeA fs1 tmp)
  else
    let fs2 := setA fs1 tmp content
    if failClose then (false, removeA fs2 tmp)
    else if failRename then (false, removeA fs2 tmp)
    else
      let fs3 := setA (removeA fs2 tmp) dst content
      (true, removeA fs3 tmp)

/-- The entry sequence `ZipFilesAtomic` hands to the zip writer: the keys of
the `files` map sorted by `sort.Strings` (byte-lexicographic), each paired
with its content.  The archive bytes are a deterministic encoding of this
sequence (the `archive/zip` library is external), so equal sequences give
byte-identical archives. -/
def zipEntrySeq (files : List (GoStr × Bytes)) : List (GoStr × Option Bytes) :=
  (sortBy (fun a b => !(lexLt b a)) (files.map Prod.fst)).map
    (fun n => (n, lookupA files n))

/-- The chunking loop of `softWrapLongLines` on one line: slices of `w`
characters taken left to right (the `w = 0` guard is unreachable, the
caller returns early for a non-positive width). -/
def chunkList (w : Nat) (l : GoStr) : List GoStr :=
  match l with
  | [] => []
  | c :: rest =>
    if w = 0 then [c :: rest]
    else (c :: rest).take w :: chunkList w ((c :: rest).drop w)
termination_by l.length
decreasing_by
  simp only [List.length_drop, List.length_cons]
  omega

/-- `softWrapLongLines`: split into lines, emit each empty line as a lone
newline and each non-empty line as its chunks each followed by a newline,
then trim the one trailing newline. -/
def softWrapLongLines (widthCols : Nat) (text : GoStr) : GoStr :=
  if widthCols = 0 then text
  else
    trimSuffixNL (cmap
      (fun ln => if ln.isEmpty then ['\n']
                 else cmap (fun ch => ch ++ ['\n']) (chunkList widthCols ln))
      (splitOn '\n' text))

/-- One uppercase hexadecimal digit. -/
def hexDigit (n : Nat) : Char :=
  if n < 10 then Char.ofNat (48 + n) else Char.ofNat (55 + n)

/-- Uppercase hexadecimal digits of `n`, most significant first. -/
def hexDigits (n : Nat) : GoStr :=
  if _hsmall : n < 16 then [hexDigit n]
  else hexDigits (n / 16) ++ [hexDigit (n % 16)]
termination_by n
decreasing_by
  exact Nat.div_lt_self (by omega) (by omega)

/-- `fmt.Sprintf("%04X", r)`: hex digits zero-padded to width four. -/
def pad4Hex (n : Nat) : GoStr :=
  List.replicate (4 - (hexDigits n).length) '0' ++ hexDigits n

/-- `fmt.Sprintf("<U+%04X>", r)`. -/
def placeholder (r : Char) : GoStr :=
  '<' :: 'U' :: '+' :: (pad4Hex r.toNat ++ ['>'])

/-- The rune loop of `replaceUnsupported`: newline, carriage return and tab
pass through; printable runes pass through; everything else becomes an
escaped code-point placeholder.  `isPrint` models Go's `unicode.IsPrint`
character table, which the source consults. -/
def sanitizeLoop (isPrint : Char → Bool) : GoStr → GoStr :=
  cmap (fun r =>
    if r = '\n' ∨ r = '\r' ∨ r = '\t' then [r]
    else if isPrint r then [r] else placeholder r)

/-- `strings.ReplaceAll(s, "\r", "\n")`. -/
def mapCR (l : GoStr) : GoStr :=
  l.map (fun c => if c = '\r' then '\n' else c)

/-- `strings.ReplaceAll(s, "\t", "    ")`. -/
def replaceTab (l : GoStr) : GoStr :=
  cmap (fun c => if c = '\t' then [' ', ' ', ' ', ' '] else [c]) l

/-- `replaceUnsupported`: the rune loop, then CRLF, CR and tab
normalization in source order. -/
def replaceUnsupported (isPrint : Char → Bool) (text : GoStr) : GoStr :=
  replaceTab (mapCR (replaceCRLF (sanitizeLoop isPrint text)))

/-- Every character `replaceUnsupported` itself inserts: the placeholder
alphabet and the space of the tab expansion.  Go's `unicode.IsPrint` is
true on all of them (digits, uppercase letters, ASCII punctuation, the
ASCII space). -/
def phAlphabet : GoStr :=
  ['<', 'U', '+', '>', ' ', '0', '1', '2', '3', '4', '5', '6', '7', '8', '9',
   'A', 'B', 'C', 'D', 'E', 'F']

/-! ## Helper lemmas on the association-list filesystem model -/

theorem lookupA_removeA_self (l : List (GoStr × α)) (k : GoStr) :
    lookupA (removeA l k) k = none := by
  induction l with
  | nil => rfl
  | cons kv rest ih =>
    obtain ⟨k1, v⟩ := kv
    by_cases h : k1 = k
    · simpa [removeA, h] using ih
    · simpa [removeA, lookupA, h] using ih

theorem lookupA_removeA_ne (l : List (GoStr × α)) (k k2 : GoStr) (h : k2 ≠ k) :
    lookupA (removeA l k) k2 = lookupA l k2 := by
  induction l with
  | nil => rfl
  | cons kv rest ih =>
    obtain ⟨k1, v⟩ := kv
    have hk2 : k ≠ k2 := fun he => h he.symm
    by_cases h1 : k1 = k
    · simpa [removeA, lookupA, h1, hk2] using ih
    · by_cases h2 : k1 = k2
      · simp [removeA, lookupA, h1, h2, h, hk2]
      · simpa [removeA, lookupA, h1, h2] using ih

theorem lookupA_setA_ne (l : List (GoStr × α)) (k k2 : GoStr) (v : α) (h : k2 ≠ k) :
    lookupA (setA l k v) k2 = lookupA l k2 := by
  have hne : k ≠ k2 := fun he => h he.symm
  simp only [setA, lookupA, hne, if_false]
  exact lookupA_removeA_ne l k k2 h

/-- C2: if the atomic write fails at the write, close, or rename step, the
temporary file is removed before the error is surfaced, and the content at
the destination path is exactly what it was before the call (old content
survives; an absent path stays absent).  The freshly created temporary file
is distinct from the destination (`os.CreateTemp` creates a new uniquely
named `*.tmp` file). -/
theorem writeAtomic_failure_leaves_destination (fs : List (GoStr × Bytes))
    (dst tmp : GoStr) (content : Bytes) (fw fc fr : Bool) (hne : tmp ≠ dst)
    (hfail : (fw || fc || fr) = true) :
    (writeAtomic fs dst tmp content fw fc fr).1 = false ∧
    lookupA (writeAtomic fs dst tmp content fw fc fr).2 dst = lookupA fs dst ∧
    lookupA (writeAtomic fs dst tmp content fw fc fr).2 tmp = none := by
  have hdt : dst ≠ tmp := fun he => hne he.symm
  cases fw with
  | true =>
    refine ⟨rfl, ?_, ?_⟩
    · show lookupA (removeA (setA fs tmp []) tmp) dst = lookupA fs dst
      rw [lookupA_removeA_ne _ _ _ hdt, lookupA_setA_ne _ _ _ _ hdt]
    · exact lookupA_removeA_self _ _
  | false =>
    cases fc with
    | true =>
      refine ⟨rfl, ?_, ?_⟩
      · show lookupA (removeA (setA (setA fs tmp []) tmp content) tmp) dst
            = lookupA fs dst
        rw [lookupA_removeA_ne _ _ _ hdt, lookupA_setA_ne _ _ _ _ hdt,
          lookupA_setA_ne _ _ _ _ hdt]
      · exact lookupA_removeA_self _ _
    | false =>
      cases fr with
      | true =>
        refine ⟨rfl, ?_, ?_⟩
        · show lookupA (removeA (setA (setA fs tmp []) tmp content) tmp) dst
              = lookupA fs dst
          rw [lookupA_removeA_ne _ _ _ hdt, lookupA_setA_ne _ _ _ _ hdt,
            lookupA_setA_ne _ _ _ _ hdt]
        · exact lookupA_removeA_self _ _
      | false => simp at hfail

/-- C2 witness: a concrete failing rename over a filesystem holding old
content at the destination. -/
theorem writeAtomic_failure_leaves_destination_witness :
    (['t', 'm', 'p'] : GoStr) ≠ ['o', 'u', 't'] ∧
    (writeAtomic [(['o', 'u', 't'], [1, 2])] ['o', 'u', 't'] ['t', 'm', 'p']
        [9] false false true).1 = false ∧
    lookupA (writeAtomic [(['o', 'u', 't'], [1, 2])] ['o', 'u', 't'] ['t', 'm', 'p']
        [9] false false true).2 ['o', 'u', 't']
      = lookupA [(['o', 'u', 't'], [1, 2])] ['o', 'u', 't'] ∧
    lookupA (writeAtomic [(['o', 'u', 't'], [1, 2])] ['o', 'u', 't'] ['t', 'm', 'p']
        [9] false false true).2 ['t', 'm', 'p'] = none :=
  ⟨by decide,
   writeAtomic_failure_leaves_destination [(['o', 'u', 't'], [1, 2])]
     ['o', 'u', 't'] ['t', 'm', 'p'] [9] false false true (by decide) rfl⟩

/-- C9: a failed ignore-file compilation leaves the root-matcher cache
unchanged and returns no matcher; a subsequent call for the same root
re-attempts compilation and, once it succeeds, stores exactly the
successful matcher in the cache. -/
theorem getGitignore_failed_compile_not_cached (cache : List (GoStr × Matcher))
    (root : GoStr) (compile : GoStr → Option Matcher)
    (hmiss : lookupA cache root = none) (hfail : compile root = none) :
    getGitignore cache root compile = (none, cache) ∧
    ∀ compile2 m, compile2 root = some m →
      getGitignore cache root compile2 = (some m, (root, m) :: cache) := by
  constructor
  · simp [getGitignore, hmiss, hfail]
  · intro compile2 m h2
    simp [getGitignore, hmiss, h2]

/-- C9 witness: an empty cache, a failing compile, then a succeeding one. -/
theorem getGitignore_failed_compile_not_cached_witness :
    lookupA ([] : List (GoStr × Matcher)) ['r'] = none ∧
    ((fun _ : GoStr => (none : Option Matcher)) ['r'] = none) ∧
    getGitignore [] ['r'] (fun _ => none) = (none, []) ∧
    getGitignore [] ['r'] (fun _ => some (fun _ => true))
      = (some (fun _ => true), [(['r'], fun _ => true)]) :=
  ⟨rfl, rfl,
   (getGitignore_failed_compile_not_cached [] ['r'] (fun _ => none) rfl rfl).1,
   (getGitignore_failed_compile_not_cached [] ['r'] (fun _ => none) rfl rfl).2
     (fun _ => some (fun _ => true)) (fun _ => true) rfl⟩

/-- C7: two custom rule texts that normalize to the same trimmed,
non-empty, non-comment line list (the cache key) lead `getCustomIgnore` to
the very same result — in particular the returned matchers have identical
match behavior on every path. -/
theorem getCustomIgnore_respects_normalization (compileLines : List GoStr → Matcher)
    (cc : Option Matcher) (ch : GoStr) (t1 t2 : GoStr)
    (h : normalizeRules t1 = normalizeRules t2) :
    getCustomIgnore compileLines cc ch t1 = getCustomIgnore compileLines cc ch t2 ∧
    ∀ p, matchesOpt (getCustomIgnore compileLines cc ch t1).1 p
        = matchesOpt (getCustomIgnore compileLines cc ch t2).1 p := by
  have heq : getCustomIgnore compileLines cc ch t1
      = getCustomIgnore compileLines cc ch t2 := by
    simp only [getCustomIgnore, h]
  exact ⟨heq, fun p => by rw [heq]⟩

/-- C7 witness: rule texts differing by CRLF line endings, blank lines,
line-edge whitespace and a comment line. -/
theorem getCustomIgnore_respects_normalization_witness :
    normalizeRules ['a', ' ', '\n', '\n', '#', 'c', '\n', ' ', 'b']
      = normalizeRules ['a', '\r', '\n', 'b'] ∧
    getCustomIgnore (fun lines p => decide (p ∈ lines)) none []
        ['a', ' ', '\n', '\n', '#', 'c', '\n', ' ', 'b']
      = getCustomIgnore (fun lines p => decide (p ∈ lines)) none []
        ['a', '\r', '\n', 'b'] :=
  ⟨by decide,
   (getCustomIgnore_respects_normalization (fun lines p => decide (p ∈ lines))
     none [] _ _ (by decide)).1⟩

/-! ## The lexicographic order behind `sort.Strings` and the child sort -/

theorem lexLt_irrefl (a : GoStr) : lexLt a a = false := by
  induction a with
  | nil => rfl
  | cons c as ih => simp [lexLt, ih]

theorem lexLt_asymm (a b : GoStr) (h : lexLt a b = true) : lexLt b a = false := by
  induction a generalizing b with
  | nil =>
    cases b with
    | nil => simpa [lexLt] using h
    | cons d bs => simp [lexLt]
  | cons c as ih =>
    cases b with
    | nil => simp [lexLt] at h
    | cons d bs =>
      by_cases h1 : c < d
      · have h2 : ¬d < c := fun h3 => absurd (lt_trans h1 h3) (lt_irrefl c)
        simp [lexLt, h1, h2, lt_asymm h1]
      · by_cases h2 : d < c
        · simp [lexLt, h1, h2] at h
        · simp [lexLt, h1, h2] at h ⊢
          exact ih bs h

theorem lexLt_connex (a b : GoStr) (h : lexLt a b = false) :
    lexLt b a = true ∨ a = b := by
  induction a generalizing b with
  | nil =>
    cases b with
    | nil => exact Or.inr rfl
    | cons d bs => simp [lexLt] at h
  | cons c as ih =>
    cases b with
    | nil => simp [lexLt]
    | cons d bs =>
      by_cases h1 : c < d
      · simp [lexLt, h1] at h
      · by_cases h2 : d < c
        · exact Or.inl (by simp [lexLt, h2])
        · simp only [lexLt, h1, h2, if_false] at h
          rcases ih bs h with h3 | h3
          · exact Or.inl (by simp [lexLt, h1, h2, h3])
          · exact Or.inr (by rw [h3, le_antisymm (not_lt.mp h2) (not_lt.mp h1)])

theorem lexLt_antisymm (a b : GoStr) (h1 : lexLt a b = false)
    (h2 : lexLt b a = false) : a = b := by
  rcases lexLt_connex a b h1 with h3 | h3
  · rw [h3] at h2; cases h2
  · exact h3

theorem lexLt_trans (a b c : GoStr) (h1 : lexLt a b = true)
    (h2 : lexLt b c = true) : lexLt a c = true := by
  induction a generalizing b c with
  | nil =>
    cases c with
    | nil =>
      cases b with
      | nil => simpa [lexLt] using h1
      | cons d bs => simp [lexLt] at h2
    | cons e cs => simp [lexLt]
  | cons x as ih =>
    cases b with
    | nil => simp [lexLt] at h1
    | cons d bs =>
      cases c with
      | nil => simp [lexLt] at h2
      | cons e cs =>
        by_cases hxd : x < d
        · by_cases hde : d < e
          · simp [lexLt, lt_trans hxd hde]
          · by_cases hed : e < d
            · simp [lexLt, hxd, hde, hed] at h2
            · have : e = d := le_antisymm (not_lt.mp hde) (not_lt.mp hed)
              simp [lexLt, this ▸ hxd]
        · by_cases hdx : d < x
          · simp [lexLt, hxd, hdx] at h1
          · have hxd2 : x = d := le_antisymm (not_lt.mp hdx) (not_lt.mp hxd)
            subst hxd2
            by_cases hxe : x < e
            · simp [lexLt, hxe]
            · by_cases hex : e < x
              · simp [lexLt, hxe, hex] at h2
              · simp only [lexLt, hxd, hxe, hex, lt_irrefl, if_false] at h1 h2 ⊢
                exact ih bs cs h1 h2

/-! ## Generic facts about the insertion-sort model of `sort.Slice` -/

theorem insertBy_perm (le : α → α → Bool) (a : α) (l : List α) :
    List.Perm (insertBy le a l) (a :: l) := by
  induction l with
  | nil => exact List.Perm.refl _
  | cons b bs ih =>
    by_cases h : le a b = true
    · simp [insertBy, h]
    · simp only [insertBy, h, if_false]
      exact (ih.cons b).trans (List.Perm.swap a b bs)

theorem sortBy_perm (le : α → α → Bool) (l : List α) : List.Perm (sortBy le l) l := by
  induction l with
  | nil => exact List.Perm.refl _
  | cons a as ih => exact (insertBy_perm le a (sortBy le as)).trans (ih.cons a)

theorem mem_insertBy (le : α → α → Bool) (a x : α) (l : List α) :
    x ∈ insertBy le a l ↔ x = a ∨ x ∈ l := by
  rw [(insertBy_perm le a l).mem_iff]
  simp

theorem pairwise_insertBy (le : α → α → Bool)
    (htot : ∀ x y, le x y = true ∨ le y x = true)
    (htrans : ∀ x y z, le x y = true → le y z = true → le x z = true)
    (a : α) (l : List α) (hl : l.Pairwise (fun x y => le x y = true)) :
    (insertBy le a l).Pairwise (fun x y => le x y = true) := by
  induction l with
  | nil => simp [insertBy]
  | cons b bs ih =>
    rcases List.pairwise_cons.mp hl with ⟨hb, hbs⟩
    by_cases hab : le a b = true
    · simp only [insertBy, hab, if_true]
      refine List.Pairwise.cons ?_ hl
      intro y hy
      rcases List.mem_cons.mp hy with rfl | hy2
      · exact hab
      · exact htrans a b y hab (hb y hy2)
    · have hba : le b a = true := (htot a b).resolve_left hab
      simp only [insertBy, hab, if_false]
      refine List.Pairwise.cons ?_ (ih hbs)
      intro y hy
      rcases (mem_insertBy le a y bs).mp hy with rfl | hy2
      · exact hba
      · exact hb y hy2

theorem pairwise_sortBy (le : α → α → Bool)
    (htot : ∀ x y, le x y = true ∨ le y x = true)
    (htrans : ∀ x y z, le x y = true → le y z = true → le x z = true)
    (l : List α) : (sortBy le l).Pairwise (fun x y => le x y = true) := by
  induction l with
  | nil => exact List.Pairwise.nil
  | cons a as ih => exact pairwise_insertBy le htot htrans a (sortBy le as) ih

/-! ## C5: deterministic archive entry order -/

theorem lexLe_total (x y : GoStr) :
    (!(lexLt y x)) = true ∨ (!(lexLt x y)) = true := by
  by_cases h : lexLt y x = true
  · exact Or.inr (by simp [lexLt_asymm y x h])
  · exact Or.inl (by simp [Bool.not_eq_true] at h ⊢; exact h)

theorem lexLe_trans (x y z : GoStr) (h1 : (!(lexLt y x)) = true)
    (h2 : (!(lexLt z y)) = true) : (!(lexLt z x)) = true := by
  simp only [Bool.not_eq_true'] at h1 h2 ⊢
  by_cases h3 : lexLt z x = true
  · rcases lexLt_connex y x h1 with h4 | h4
    · have := lexLt_trans z x y h3 h4
      rw [this] at h2
      cases h2
    · rw [h4] at h2
      rw [h2] at h3
      cases h3
  · simpa [Bool.not_eq_true] using h3

theorem lookupA_perm (f1 f2 : List (GoStr × α)) (hperm : List.Perm f1 f2) :
    (f1.map Prod.fst).Nodup → ∀ k, lookupA f1 k = lookupA f2 k := by
  induction hperm with
  | nil => intro _ k; rfl
  | cons x h ih =>
    intro hnd k
    obtain ⟨k1, v⟩ := x
    rw [List.map_cons, List.nodup_cons] at hnd
    by_cases hk : k1 = k
    · simp [lookupA, hk]
    · simp [lookupA, hk, ih hnd.2 k]
  | swap x y l =>
    intro hnd k
    obtain ⟨kx, vx⟩ := x
    obtain ⟨ky, vy⟩ := y
    rw [List.map_cons, List.map_cons, List.nodup_cons] at hnd
    have hne : ky ≠ kx := fun he => hnd.1 (by rw [he]; exact List.mem_cons_self _ _)
    by_cases h1 : ky = k
    · have h2 : kx ≠ k := fun he => hne (h1.trans he.symm)
      simp [lookupA, h1, h2]
    · by_cases h2 : kx = k
      · simp [lookupA, h1, h2]
      · simp [lookupA, h1, h2]
  | trans h1 h2 ih1 ih2 =>
    intro hnd k
    have hndmid := ((h1.map Prod.fst).nodup_iff).mp hnd
    exact (ih1 hnd k).trans (ih2 hndmid k)

/-- C5: two `files` maps holding the same set of (relative name, content)
pairs — modelled as association lists that are permutations of one another
with no duplicate names — make `ZipFilesAtomic` emit the identical entry
sequence to the zip writer, because entry names are always iterated in
`sort.Strings` order; the archive bytes, a function of that sequence, are
therefore byte-identical. -/
theorem zipEntrySeq_deterministic (f1 f2 : List (GoStr × Bytes))
    (hperm : List.Perm f1 f2) (hnd : (f1.map Prod.fst).Nodup) :
    zipEntrySeq f1 = zipEntrySeq f2 := by
  have hkeys : List.Perm (f1.map Prod.fst) (f2.map Prod.fst) := hperm.map _
  have hsperm : List.Perm
      (sortBy (fun a b => !(lexLt b a)) (f1.map Prod.fst))
      (sortBy (fun a b => !(lexLt b a)) (f2.map Prod.fst)) :=
    (sortBy_perm _ _).trans (hkeys.trans (sortBy_perm _ _).symm)
  have hs1 := pairwise_sortBy (fun a b : GoStr => !(lexLt b a))
    lexLe_total lexLe_trans (f1.map Prod.fst)
  have hs2 := pairwise_sortBy (fun a b : GoStr => !(lexLt b a))
    lexLe_total lexLe_trans (f2.map Prod.fst)
  have hkeq : sortBy (fun a b => !(lexLt b a)) (f1.map Prod.fst)
      = sortBy (fun a b => !(lexLt b a)) (f2.map Prod.fst) := by
    haveI : IsAntisymm GoStr (fun a b => ((fun a b : GoStr => !(lexLt b a)) a b) = true) :=
      ⟨fun a b h1 h2 => by
        simp only [Bool.not_eq_true'] at h1 h2
        exact lexLt_antisymm a b h2 h1⟩
    exact List.eq_of_perm_of_sorted hsperm hs1 hs2
  have hfun : (fun n => (n, lookupA f1 n)) = (fun n => (n, lookupA f2 n)) :=
    funext (fun n => by rw [lookupA_perm f1 f2 hperm hnd n])
  unfold zipEntrySeq
  rw [hkeq, hfun]

/-- C5 witness: `{"b": B, "a": A}` and `{"a": A, "b": B}` in the two
insertion orders produce the same entry sequence. -/
theorem zipEntrySeq_deterministic_witness :
    List.Perm [((['b'] : GoStr), ([66] : Bytes)), (['a'], [65])]
      [(['a'], [65]), (['b'], [66])] ∧
    ([(['b'] : GoStr), ['a']] : List GoStr).Nodup ∧
    zipEntrySeq [((['b'] : GoStr), ([66] : Bytes)), (['a'], [65])]
      = zipEntrySeq [(['a'], [65]), (['b'], [66])] :=
  ⟨List.Perm.swap _ _ _, by decide,
   zipEntrySeq_deterministic _ _ (List.Perm.swap _ _ _) (by decide)⟩

/-! ## C6: soft line wrapping -/

theorem chunkList_flatten (w : Nat) (l : GoStr) : (chunkList w l).flatten = l := by
  induction l using chunkList.induct (w := w) with
  | case1 => simp [chunkList]
  | case2 c rest h => simp [chunkList, h]
  | case3 c rest h ih =>
    rw [chunkList]
    simp only [h, if_false, List.flatten]
    rw [ih, List.take_append_drop]

theorem chunkList_eq_nil_iff (w : Nat) (l : GoStr) :
    chunkList w l = [] ↔ l = [] := by
  cases l with
  | nil => simp [chunkList]
  | cons c rest =>
    rw [chunkList]
    by_cases h : w = 0 <;> simp [h]

theorem chunkList_length_le (w : Nat) (hw : w ≠ 0) (l : GoStr) :
    ∀ ch ∈ chunkList w l, ch.length ≤ w := by
  induction l using chunkList.induct (w := w) with
  | case1 => simp [chunkList]
  | case2 c rest h => exact absurd h hw
  | case3 c rest h ih =>
    intro ch hch
    rw [chunkList] at hch
    simp only [h, if_false, List.mem_cons] at hch
    rcases hch with rfl | hch
    · rw [List.length_take]
      exact min_le_left _ _
    · exact ih ch hch

theorem chunkList_inner_length (w : Nat) (l : GoStr) :
    ∀ pre ch post, chunkList w l = pre ++ ch :: post → post ≠ [] →
      ch.length = w := by
  induction l using chunkList.induct (w := w) with
  | case1 =>
    intro pre ch post h hpost
    rw [chunkList] at h
    exact absurd h.symm (List.append_ne_nil_of_right_ne_nil pre (List.cons_ne_nil ch post))
  | case2 c rest h0 =>
    intro pre ch post h hpost
    rw [chunkList] at h
    simp only [h0, if_true] at h
    have := congrArg List.length h
    simp [List.length_append] at this
    cases post with
    | nil => exact absurd rfl hpost
    | cons p ps => simp at this; omega
  | case3 c rest h0 ih =>
    intro pre ch post h hpost
    rw [chunkList] at h
    simp only [h0, if_false] at h
    cases pre with
    | nil =>
      simp only [List.nil_append, List.cons.injEq] at h
      obtain ⟨rfl, htail⟩ := h
      have hdrop : (c :: rest).drop w ≠ [] := by
        intro he
        apply hpost
        rw [← htail, he]
        exact (chunkList_eq_nil_iff w []).mpr rfl
      have hlen : w < (c :: rest).length := by
        by_contra hle
        exact hdrop (List.drop_eq_nil_of_le (le_of_not_lt hle))
      rw [List.length_take]
      omega
    | cons p ps =>
      simp only [List.cons_append, List.cons.injEq] at h
      exact ih ps ch post h.2 hpost

theorem splitOn_of_not_mem (c : Char) (l : GoStr) (h : c ∉ l) :
    splitOn c l = [l] := by
  induction l with
  | nil => rfl
  | cons x xs ih =>
    have hx : x ≠ c := fun he => h (he ▸ List.mem_cons_self x xs)
    have hxs : c ∉ xs := fun hm => h (List.mem_cons_of_mem x hm)
    simp only [splitOn, hx, if_false, ih hxs]

theorem trimSuffixNL_append (a b : GoStr) (hb : b ≠ []) :
    trimSuffixNL (a ++ b) = a ++ trimSuffixNL b := by
  unfold trimSuffixNL
  rw [List.getLast?_append_of_ne_nil a hb]
  by_cases h : b.getLast? = some '\n'
  · simp only [h, if_true]
    exact List.dropLast_append_of_ne_nil a hb
  · simp only [h, if_false]

theorem cmap_ne_nil (f : α → List β) (x : α) (l : List α) (hf : f x ≠ []) :
    cmap f (x :: l) ≠ [] := by
  simp only [cmap]
  exact fun he => hf (List.append_eq_nil.mp he).1

theorem trimSuffixNL_cmap_newline (chunks : List GoStr) (h : chunks ≠ []) :
    trimSuffixNL (cmap (fun ch => ch ++ ['\n']) chunks) = interc ['\n'] chunks := by
  induction chunks with
  | nil => exact absurd rfl h
  | cons c cs ih =>
    cases cs with
    | nil =>
      show trimSuffixNL ((c ++ ['\n']) ++ []) = c
      rw [List.append_nil]
      unfold trimSuffixNL
      rw [List.getLast?_concat]
      simp [List.dropLast_concat]
    | cons c2 cs2 =>
      have hrest : cmap (fun ch => ch ++ ['\n']) (c2 :: cs2) ≠ [] :=
        cmap_ne_nil _ _ _ (by simp)
      show trimSuffixNL ((c ++ ['\n']) ++ cmap (fun ch => ch ++ ['\n']) (c2 :: cs2))
          = c ++ ['\n'] ++ interc ['\n'] (c2 :: cs2)
      rw [trimSuffixNL_append _ _ hrest, ih (List.cons_ne_nil c2 cs2)]

/-- C6: wrapping one input line at the fixed column budget 160 cuts it into
consecutive chunks at exactly the 160-character boundary: every chunk has
at most 160 characters, every chunk but the last exactly 160, their
concatenation restores the line, `softWrapLongLines` joins exactly these
chunks with newlines, and a 200-character line becomes its first 160
characters followed by its remaining 40. -/
theorem softWrap_line_chunks (ln : GoStr) (h : '\n' ∉ ln) :
    (chunkList 160 ln).flatten = ln ∧
    (∀ ch ∈ chunkList 160 ln, ch.length ≤ 160) ∧
    (∀ pre ch post, chunkList 160 ln = pre ++ ch :: post → post ≠ [] →
      ch.length = 160) ∧
    softWrapLongLines 160 ln = interc ['\n'] (chunkList 160 ln) ∧
    (ln.length = 200 → chunkList 160 ln = [ln.take 160, ln.drop 160]) := by
  refine ⟨chunkList_flatten 160 ln, chunkList_length_le 160 (by omega) ln,
    chunkList_inner_length 160 ln, ?_, ?_⟩
  · unfold softWrapLongLines
    rw [if_neg (by omega), splitOn_of_not_mem '\n' ln h]
    by_cases hln : ln.isEmpty
    · have he : ln = [] := by
        cases ln with
        | nil => rfl
        | cons a b => simp [List.isEmpty] at hln
      subst he
      rw [show chunkList 160 ([] : GoStr) = [] from (chunkList_eq_nil_iff 160 []).mpr rfl]
      rfl
    · show trimSuffixNL (cmap _ [ln]) = _
      simp only [cmap, List.append_nil]
      rw [if_neg hln]
      rw [trimSuffixNL_cmap_newline]
      rw [Ne, chunkList_eq_nil_iff]
      intro he
      rw [he] at hln
      simp [List.isEmpty] at hln
  · intro h200
    have hne : ln ≠ [] := by intro he; rw [he] at h200; simp at h200
    obtain ⟨c, rest, rfl⟩ := List.exists_cons_of_ne_nil hne
    rw [chunkList]
    rw [if_neg (by omega)]
    have hdroplen : ((c :: rest).drop 160).length = 40 := by
      rw [List.length_drop, h200]
    have hdropne : (c :: rest).drop 160 ≠ [] := by
      intro he; rw [he] at hdroplen; simp at hdroplen
    obtain ⟨d, drest, hd⟩ := List.exists_cons_of_ne_nil hdropne
    have hdlen : (d :: drest).length = 40 := by rw [← hd]; exact hdroplen
    rw [hd, chunkList, if_neg (by omega)]
    have h1 : (d :: drest).take 160 = d :: drest :=
      List.take_of_length_le (by omega)
    have h2 : (d :: drest).drop 160 = [] :=
      List.drop_eq_nil_of_le (by omega)
    rw [h1, h2,
      show chunkList 160 ([] : GoStr) = [] from (chunkList_eq_nil_iff 160 []).mpr rfl,
      ← hd]

/-- C6 witness: a concrete 200-character line of `x`s. -/
theorem softWrap_line_chunks_witness :
    ('\n' ∉ List.replicate 200 'x') ∧
    ((chunkList 160 (List.replicate 200 'x')).flatten = List.replicate 200 'x' ∧
    (∀ ch ∈ chunkList 160 (List.replicate 200 'x'), ch.length ≤ 160) ∧
    (∀ pre ch post, chunkList 160 (List.replicate 200 'x') = pre ++ ch :: post →
      post ≠ [] → ch.length = 160) ∧
    softWrapLongLines 160 (List.replicate 200 'x')
      = interc ['\n'] (chunkList 160 (List.replicate 200 'x')) ∧
    ((List.replicate 200 'x').length = 200 →
      chunkList 160 (List.replicate 200 'x')
        = [(List.replicate 200 'x').take 160, (List.replicate 200 'x').drop 160])) :=
  ⟨by decide, softWrap_line_chunks (List.replicate 200 'x') (by decide)⟩

/-! ## C10: idempotence of character sanitization -/

theorem mem_cmap (f : α → List β) (l : List α) (b : β) :
    b ∈ cmap f l ↔ ∃ a ∈ l, b ∈ f a := by
  induction l with
  | nil => simp [cmap]
  | cons a as ih => simp [cmap, ih]

theorem hexDigit_mem_phAlphabet (n : Nat) (h : n < 16) :
    hexDigit n ∈ phAlphabet := by
  interval_cases n <;> decide

theorem mem_hexDigits (n : Nat) (c : Char) (h : c ∈ hexDigits n) :
    c ∈ phAlphabet := by
  induction n using hexDigits.induct with
  | case1 n hn =>
    rw [hexDigits, dif_pos hn] at h
    rcases List.mem_singleton.mp h with rfl
    exact hexDigit_mem_phAlphabet n hn
  | case2 n hn ih =>
    rw [hexDigits, dif_neg hn] at h
    rcases List.mem_append.mp h with h2 | h2
    · exact ih h2
    · rcases List.mem_singleton.mp h2 with rfl
      exact hexDigit_mem_phAlphabet _ (Nat.mod_lt _ (by omega))

theorem mem_placeholder (r : Char) (c : Char) (h : c ∈ placeholder r) :
    c ∈ phAlphabet := by
  rw [placeholder] at h
  rcases List.mem_cons.mp h with rfl | h
  · decide
  rcases List.mem_cons.mp h with rfl | h
  · decide
  rcases List.mem_cons.mp h with rfl | h
  · decide
  rcases List.mem_append.mp h with h | h
  · rw [pad4Hex] at h
    rcases List.mem_append.mp h with h | h
    · rcases List.mem_replicate.mp h with ⟨-, rfl⟩
      decide
    · exact mem_hexDigits _ _ h
  · rcases List.mem_singleton.mp h with rfl
    decide

theorem mem_sanitizeLoop (p : Char → Bool) (l : GoStr) (c : Char)
    (h : c ∈ sanitizeLoop p l) :
    c = '\n' ∨ c = '\r' ∨ c = '\t' ∨ p c = true ∨ c ∈ phAlphabet := by
  rcases (mem_cmap _ l c).mp h with ⟨a, _, hc⟩
  by_cases h1 : a = '\n' ∨ a = '\r' ∨ a = '\t'
  · rw [if_pos h1] at hc
    rcases List.mem_singleton.mp hc with rfl
    tauto
  · rw [if_neg h1] at hc
    by_cases h2 : p a = true
    · rw [if_pos h2] at hc
      rcases List.mem_singleton.mp hc with rfl
      tauto
    · rw [if_neg h2] at hc
      exact Or.inr (Or.inr (Or.inr (Or.inr (mem_placeholder a c hc))))

theorem mem_replaceCRLF (l : GoStr) (c : Char) (h : c ∈ replaceCRLF l) :
    c ∈ l := by
  induction l using replaceCRLF.induct with
  | case1 => simpa [replaceCRLF] using h
  | case2 d => simpa [replaceCRLF] using h
  | case3 c1 c2 rest hif ih =>
    rw [replaceCRLF, if_pos hif] at h
    rcases List.mem_cons.mp h with rfl | h2
    · rw [hif.2]; simp
    · simp [List.mem_cons, ih h2]
  | case4 c1 c2 rest hif ih =>
    rw [replaceCRLF, if_neg hif] at h
    rcases List.mem_cons.mp h with rfl | h2
    · simp
    · simp [List.mem_cons]
      rcases List.mem_cons.mp (ih h2) with h3 | h3
      · exact Or.inr (Or.inl h3)
      · exact Or.inr (Or.inr h3)

theorem mem_mapCR (l : GoStr) (c : Char) (h : c ∈ mapCR l) :
    (c ∈ l ∧ c ≠ '\r') ∨ c = '\n' := by
  rcases List.mem_map.mp h with ⟨a, ha, hc⟩
  by_cases h1 : a = '\r'
  · rw [if_pos h1] at hc
    exact Or.inr hc.symm
  · rw [if_neg h1] at hc
    exact Or.inl ⟨hc ▸ ha, hc ▸ h1⟩

theorem mem_replaceTab (l : GoStr) (c : Char) (h : c ∈ replaceTab l) :
    (c ∈ l ∧ c ≠ '\t') ∨ c = ' ' := by
  rcases (mem_cmap _ l c).mp h with ⟨a, ha, hc⟩
  by_cases h1 : a = '\t'
  · rw [if_pos h1] at hc
    right
    simpa using hc
  · rw [if_neg h1] at hc
    rcases List.mem_singleton.mp hc with rfl
    exact Or.inl ⟨ha, h1⟩

theorem sanitizeLoop_id (p : Char → Bool) (l : GoStr)
    (h : ∀ c ∈ l, c = '\n' ∨ p c = true) : sanitizeLoop p l = l := by
  induction l with
  | nil => rfl
  | cons c cs ih =>
    show (if c = '\n' ∨ c = '\r' ∨ c = '\t' then [c]
          else if p c then [c] else placeholder c) ++ sanitizeLoop p cs = c :: cs
    have htail := ih (fun d hd => h d (List.mem_cons_of_mem c hd))
    by_cases h1 : c = '\n' ∨ c = '\r' ∨ c = '\t'
    · rw [if_pos h1, htail]; rfl
    · have h2 : p c = true := by
        rcases h c (List.mem_cons_self c cs) with h3 | h3
        · exact absurd (Or.inl h3) h1
        · exact h3
      rw [if_neg h1, if_pos h2, htail]; rfl

theorem replaceCRLF_id (l : GoStr) (h : '\r' ∉ l) : replaceCRLF l = l := by
  induction l using replaceCRLF.induct with
  | case1 => rfl
  | case2 d => rfl
  | case3 c1 c2 rest hif ih =>
    exact absurd (hif.1 ▸ List.mem_cons_self c1 (c2 :: rest)) h
  | case4 c1 c2 rest hif ih =>
    rw [replaceCRLF, if_neg hif,
      ih (fun hm => h (List.mem_cons_of_mem c1 hm))]

theorem mapCR_id (l : GoStr) (h : '\r' ∉ l) : mapCR l = l := by
  induction l with
  | nil => rfl
  | cons c cs ih =>
    have h1 : c ≠ '\r' := fun he => h (he ▸ List.mem_cons_self c cs)
    show (if c = '\r' then '\n' else c) :: mapCR cs = c :: cs
    rw [if_neg h1, ih (fun hm => h (List.mem_cons_of_mem c hm))]

theorem replaceTab_id (l : GoStr) (h : '\t' ∉ l) : replaceTab l = l := by
  induction l with
  | nil => rfl
  | cons c cs ih =>
    have h1 : c ≠ '\t' := fun he => h (he ▸ List.mem_cons_self c cs)
    show (if c = '\t' then [' ', ' ', ' ', ' '] else [c]) ++ replaceTab cs = c :: cs
    rw [if_neg h1, ih (fun hm => h (List.mem_cons_of_mem c hm))]
    rfl

/-- C10: character sanitization is idempotent.  `isPrint` is the Go
`unicode.IsPrint` table; the hypothesis records that it holds on the
characters the sanitizer itself inserts (uppercase hex digits, `<`, `U`,
`+`, `>`, and the ASCII space), which is true of Go's table. -/
theorem replaceUnsupported_idempotent (isPrint : Char → Bool)
    (hp : phAlphabet.all isPrint = true) (text : GoStr) :
    replaceUnsupported isPrint (replaceUnsupported isPrint text)
      = replaceUnsupported isPrint text := by
  have hpc : ∀ c ∈ phAlphabet, isPrint c = true := List.all_eq_true.mp hp
  set s := replaceUnsupported isPrint text with hs
  have hmem : ∀ c ∈ s, (c = '\n' ∨ isPrint c = true) ∧ c ≠ '\r' ∧ c ≠ '\t' := by
    intro c hc
    rw [hs] at hc
    rcases mem_replaceTab _ c hc with ⟨hc2, hnt⟩ | rfl
    · rcases mem_mapCR _ c hc2 with ⟨hc3, hnr⟩ | rfl
      · have hc4 := mem_replaceCRLF _ c hc3
        rcases mem_sanitizeLoop isPrint _ c hc4 with h5 | h5 | h5 | h5 | h5
        · exact ⟨Or.inl h5, h5 ▸ by decide, hnt⟩
        · exact absurd h5 hnr
        · exact absurd h5 hnt
        · exact ⟨Or.inr h5, hnr, hnt⟩
        · exact ⟨Or.inr (hpc c h5), hnr, hnt⟩
      · exact ⟨Or.inl rfl, by decide, by decide⟩
    · exact ⟨Or.inr (hpc ' ' (by decide)), by decide, by decide⟩
  have hnr : '\r' ∉ s := fun hm => (hmem _ hm).2.1 rfl
  have hnt : '\t' ∉ s := fun hm => (hmem _ hm).2.2 rfl
  show replaceTab (mapCR (replaceCRLF (sanitizeLoop isPrint s))) = s
  rw [sanitizeLoop_id isPrint s (fun c hc => (hmem c hc).1),
    replaceCRLF_id s hnr, mapCR_id s hnr, replaceTab_id s hnt]

/-- C10 witness: the ASCII-printable table on a string holding a tab, a
carriage return and a control character. -/
theorem replaceUnsupported_idempotent_witness :
    phAlphabet.all (fun c => decide (32 ≤ c.toNat ∧ c.toNat ≤ 126)) = true ∧
    replaceUnsupported (fun c => decide (32 ≤ c.toNat ∧ c.toNat ≤ 126))
        (replaceUnsupported (fun c => decide (32 ≤ c.toNat ∧ c.toNat ≤ 126))
          ['a', '\t', '\r', Char.ofNat 1])
      = replaceUnsupported (fun c => decide (32 ≤ c.toNat ∧ c.toNat ≤ 126))
        ['a', '\t', '\r', Char.ofNat 1] :=
  ⟨by decide,
   replaceUnsupported_idempotent (fun c => decide (32 ≤ c.toNat ∧ c.toNat ≤ 126))
     (by decide) ['a', '\t', '\r', Char.ofNat 1]⟩

/-! ## Induction principle for directory listings and tree membership -/

theorem fsListInduction (P : List FSEntry → Prop) (h0 : P [])
    (hf : ∀ n s es, P es → P (FSEntry.file n s :: es))
    (hd : ∀ n cs es, P cs → P es → P (FSEntry.dir n cs :: es)) :
    ∀ es, P es := by
  have key : ∀ k es, sizeOf es ≤ k → P es := by
    intro k
    induction k with
    | zero =>
      intro es hle
      exfalso
      cases es <;> simp at hle
    | succ k ih =>
      intro es hle
      match es with
      | [] => exact h0
      | FSEntry.file n s :: es2 =>
        refine hf n s es2 (ih es2 ?_)
        have h1 : sizeOf (FSEntry.file n s :: es2)
            = 1 + (1 + sizeOf n + sizeOf s) + sizeOf es2 := by simp
        omega
      | FSEntry.dir n cs :: es2 =>
        have h1 : sizeOf (FSEntry.dir n cs :: es2)
            = 1 + (1 + sizeOf n + sizeOf cs) + sizeOf es2 := by simp
        have h2 : 0 < sizeOf cs := by cases cs <;> simp
        have h3 : 0 < sizeOf es2 := by cases es2 <;> simp
        exact hd n cs es2 (ih cs (by omega)) (ih es2 (by omega))
  exact fun es => key (sizeOf es) es (le_refl _)

theorem allNodes_def (n rel : GoStr) (d g c : Bool) (sz : Nat)
    (cs : List FileNode) :
    allNodes (FileNode.mk n rel d g c sz cs)
      = FileNode.mk n rel d g c sz cs :: allNodesL cs := by
  rw [allNodes]

theorem allNodesL_nil : allNodesL [] = [] := by
  rw [allNodesL]

theorem allNodesL_cons (x : FileNode) (xs : List FileNode) :
    allNodesL (x :: xs) = allNodes x ++ allNodesL xs := by
  rw [allNodesL]

theorem mem_allNodesL (l : List FileNode) (x : FileNode) :
    x ∈ allNodesL l ↔ ∃ m ∈ l, x ∈ allNodes m := by
  induction l with
  | nil => simp [allNodesL_nil]
  | cons y ys ih => simp [allNodesL_cons, ih]

theorem mem_allNodesL_sortNodes (l : List FileNode) (x : FileNode) :
    x ∈ allNodesL (sortNodes l) ↔ x ∈ allNodesL l := by
  rw [mem_allNodesL, mem_allNodesL]
  constructor <;> rintro ⟨m, hm, hx⟩
  · exact ⟨m, (sortBy_perm _ l).mem_iff.mp hm, hx⟩
  · exact ⟨m, (sortBy_perm _ l).mem_iff.mpr hm, hx⟩

theorem walkList_no_gitignore_flag (ci : Option Matcher) :
    ∀ es pre node, node ∈ allNodesL (walkList none ci pre es) →
      node.isGitignored = false := by
  refine fsListInduction
    (fun es => ∀ pre node, node ∈ allNodesL (walkList none ci pre es) →
      node.isGitignored = false) ?_ ?_ ?_
  · intro pre node h
    rw [walkList, allNodesL_nil] at h
    cases h
  · intro n s es ih pre node h
    rw [walkList, allNodesL_cons] at h
    rcases List.mem_append.mp h with h1 | h1
    · rw [allNodes_def, allNodesL_nil] at h1
      rcases List.mem_singleton.mp h1 with rfl
      rfl
    · exact ih pre node h1
  · intro n cs es ihcs ihes pre node h
    rw [walkList] at h
    by_cases hig : (matchesOpt none (pre ++ n ++ ['/'])
        || matchesOpt ci (pre ++ n ++ ['/'])) = true
    · rw [if_pos hig] at h
      exact ihes pre node h
    · rw [if_neg hig, allNodesL_cons] at h
      rcases List.mem_append.mp h with h1 | h1
      · rw [allNodes_def] at h1
        rcases List.mem_cons.mp h1 with rfl | h2
        · rfl
        · exact ihcs _ node ((mem_allNodesL_sortNodes _ _).mp h2)
      · exact ihes pre node h1

/-- C8: when the root's ignore file is missing or fails to compile (and the
root is not already cached), `getGitignore` returns no matcher instead of
an error, and the tree built with that absent matcher has no node flagged
version-control-ignored. -/
theorem getGitignore_fail_open (cache : List (GoStr × Matcher)) (root : GoStr)
    (compile : GoStr → Option Matcher) (ci : Option Matcher)
    (rootName : GoStr) (es : List FSEntry)
    (hmiss : lookupA cache root = none) (hfail : compile root = none) :
    (getGitignore cache root compile).1 = none ∧
    ∀ node ∈ allNodesL
        (buildTree (getGitignore cache root compile).1 ci rootName es),
      node.isGitignored = false := by
  have h1 : (getGitignore cache root compile).1 = none := by
    simp [getGitignore, hmiss, hfail]
  refine ⟨h1, ?_⟩
  rw [h1]
  intro node h
  rw [buildTree, allNodesL_cons, allNodesL_nil, List.append_nil,
    allNodes_def] at h
  rcases List.mem_cons.mp h with rfl | h2
  · rfl
  · exact walkList_no_gitignore_flag ci es []
      node ((mem_allNodesL_sortNodes _ _).mp h2)

/-- C8 witness: a failing compile over a one-file, one-directory listing
with a custom matcher that matches everything. -/
theorem getGitignore_fail_open_witness :
    lookupA ([] : List (GoStr × Matcher)) ['r'] = none ∧
    ((fun _ : GoStr => (none : Option Matcher)) ['r'] = none) ∧
    ((getGitignore [] ['r'] (fun _ => none)).1 = none ∧
    ∀ node ∈ allNodesL
        (buildTree (getGitignore [] ['r'] (fun _ => none)).1
          (some (fun _ => true)) ['r']
          [FSEntry.file ['a'] 3, FSEntry.dir ['d'] []]),
      node.isGitignored = false) :=
  ⟨rfl, rfl,
   getGitignore_fail_open [] ['r'] (fun _ => none) (some (fun _ => true))
     ['r'] [FSEntry.file ['a'] 3, FSEntry.dir ['d'] []] rfl rfl⟩

/-! ## C3: every child slice is sorted -/

theorem lexLt_neg_trans (x y z : GoStr) (h1 : lexLt y x = false)
    (h2 : lexLt z y = false) : lexLt z x = false := by
  have h3 := lexLe_trans x y z (by simp [h1]) (by simp [h2])
  simpa using h3

theorem nodeLe_total (x y : FileNode) :
    (!(nodeLess y x)) = true ∨ (!(nodeLess x y)) = true := by
  obtain ⟨nx, rx, dx, gx, cx, sx, chx⟩ := x
  obtain ⟨ny, ry, dy, gy, cy, sy, chy⟩ := y
  cases dx <;> cases dy <;>
    simp only [nodeLess, FileNode.isDir, FileNode.name, ne_eq, Bool.not_eq_true',
      if_true, if_false] <;>
    simp_all <;>
    [skip; skip] <;>
  · rcases lexLe_total (lowerP nx) (lowerP ny) with h | h
    · left
      simpa using h
    · right
      simpa using h

theorem nodeLe_trans (x y z : FileNode) (h1 : (!(nodeLess y x)) = true)
    (h2 : (!(nodeLess z y)) = true) : (!(nodeLess z x)) = true := by
  obtain ⟨nx, rx, dx, gx, cx, sx, chx⟩ := x
  obtain ⟨ny, ry, dy, gy, cy, sy, chy⟩ := y
  obtain ⟨nz, rz, dz, gz, cz, sz2, chz⟩ := z
  cases dx <;> cases dy <;> cases dz <;>
    simp only [nodeLess, FileNode.isDir, FileNode.name, ne_eq,
      Bool.not_eq_true'] at h1 h2 ⊢ <;>
    simp_all <;>
    exact lexLt_neg_trans _ _ _ h1 h2

theorem nodeLe_iff (a b : FileNode) :
    (!(nodeLess b a)) = true ↔
      ((b.isDir = true → a.isDir = true) ∧
       (a.isDir = b.isDir → lexLt (lowerP b.name) (lowerP a.name) = false)) := by
  obtain ⟨na, ra, da, ga, ca, sa, cha⟩ := a
  obtain ⟨nb, rb, db, gb, cb, sb, chb⟩ := b
  cases da <;> cases db <;>
    simp [nodeLess, FileNode.isDir, FileNode.name]

theorem walkList_children_sorted (gi ci : Option Matcher) :
    ∀ es pre node, node ∈ allNodesL (walkList gi ci pre es) →
      node.children.Pairwise (fun a b => (!(nodeLess b a)) = true) := by
  refine fsListInduction
    (fun es => ∀ pre node, node ∈ allNodesL (walkList gi ci pre es) →
      node.children.Pairwise (fun a b => (!(nodeLess b a)) = true)) ?_ ?_ ?_
  · intro pre node h
    rw [walkList, allNodesL_nil] at h
    cases h
  · intro n s es ih pre node h
    rw [walkList, allNodesL_cons] at h
    rcases List.mem_append.mp h with h1 | h1
    · rw [allNodes_def, allNodesL_nil] at h1
      rcases List.mem_singleton.mp h1 with rfl
      exact List.Pairwise.nil
    · exact ih pre node h1
  · intro n cs es ihcs ihes pre node h
    rw [walkList] at h
    by_cases hig : (matchesOpt gi (pre ++ n ++ ['/'])
        || matchesOpt ci (pre ++ n ++ ['/'])) = true
    · rw [if_pos hig] at h
      exact ihes pre node h
    · rw [if_neg hig, allNodesL_cons] at h
      rcases List.mem_append.mp h with h1 | h1
      · rw [allNodes_def] at h1
        rcases List.mem_cons.mp h1 with rfl | h2
        · exact pairwise_sortBy _ nodeLe_total nodeLe_trans _
        · exact ihcs _ node ((mem_allNodesL_sortNodes _ _).mp h2)
      · exact ihes pre node h1

/-- C3: in every tree `BuildTree` returns, every node's child slice is
sorted: directory children precede file children, and within each group
names are case-insensitively non-decreasing. -/
theorem buildTree_children_sorted (gi ci : Option Matcher) (rootName : GoStr)
    (es : List FSEntry) (node : FileNode)
    (h : node ∈ allNodesL (buildTree gi ci rootName es)) :
    node.children.Pairwise (fun a b =>
      (b.isDir = true → a.isDir = true) ∧
      (a.isDir = b.isDir → lexLt (lowerP b.name) (lowerP a.name) = false)) := by
  have hle : node.children.Pairwise (fun a b => (!(nodeLess b a)) = true) := by
    rw [buildTree, allNodesL_cons, allNodesL_nil, List.append_nil,
      allNodes_def] at h
    rcases List.mem_cons.mp h with rfl | h2
    · exact pairwise_sortBy _ nodeLe_total nodeLe_trans _
    · exact walkList_children_sorted gi ci es [] node
        ((mem_allNodesL_sortNodes _ _).mp h2)
  exact hle.imp (fun hab => (nodeLe_iff _ _).mp hab)

/-- C3 witness: a root holding a file `b` and a directory `A`; the sorted
children place the directory first. -/
theorem buildTree_children_sorted_witness :
    (FileNode.mk ['r'] ['.'] true false false 0
        [FileNode.mk ['A'] ['A'] true false false 0 [],
         FileNode.mk ['b'] ['b'] false false false 1 []]
      ∈ allNodesL (buildTree none none ['r']
          [FSEntry.file ['b'] 1, FSEntry.dir ['A'] []])) ∧
    ([FileNode.mk ['A'] ['A'] true false false 0 [],
      FileNode.mk ['b'] ['b'] false false false 1 []].Pairwise (fun a b =>
        (b.isDir = true → a.isDir = true) ∧
        (a.isDir = b.isDir →
          lexLt (lowerP b.name) (lowerP a.name) = false))) := by
  have hmem : FileNode.mk ['r'] ['.'] true false false 0
      [FileNode.mk ['A'] ['A'] true false false 0 [],
       FileNode.mk ['b'] ['b'] false false false 1 []]
    ∈ allNodesL (buildTree none none ['r']
        [FSEntry.file ['b'] 1, FSEntry.dir ['A'] []]) := by
    simp +decide [buildTree, walkList, sortNodes, sortBy, insertBy, nodeLess,
      matchesOpt, allNodesL_cons, allNodesL_nil, allNodes_def,
      FileNode.isDir, FileNode.name, lowerP, lexLt]
  exact ⟨hmem,
    buildTree_children_sorted none none ['r']
      [FSEntry.file ['b'] 1, FSEntry.dir ['A'] []] _ hmem⟩

/-! ## C1/C4: path-segment disjointness -/

theorem seg_slash_not_prefix (a b : GoStr) (u : List Char) (hb : '/' ∉ b)
    (h : a ++ '/' :: u <+: b) : False := by
  induction a generalizing b with
  | nil =>
    simp only [List.nil_append] at h
    exact hb (h.subset (List.mem_cons_self _ _))
  | cons c as ih =>
    cases b with
    | nil =>
      have hlen := h.length_le
      simp at hlen
    | cons d bs =>
      rw [List.cons_append] at h
      rcases List.cons_prefix_cons.mp h with ⟨rfl, h2⟩
      exact ih bs (fun hm => hb (List.mem_cons_of_mem _ hm)) h2

theorem seg_slash_inj (a b : GoStr) (u v : List Char) (ha : '/' ∉ a)
    (hb : '/' ∉ b) (h : a ++ '/' :: u <+: b ++ '/' :: v) : a = b := by
  induction a generalizing b with
  | nil =>
    cases b with
    | nil => rfl
    | cons d bs =>
      simp only [List.nil_append, List.cons_append] at h
      rcases List.cons_prefix_cons.mp h with ⟨he, -⟩
      exact absurd (by rw [he]; exact List.mem_cons_self d bs : '/' ∈ d :: bs) hb
  | cons c as ih =>
    cases b with
    | nil =>
      simp only [List.cons_append, List.nil_append] at h
      rcases List.cons_prefix_cons.mp h with ⟨rfl, -⟩
      exact absurd (List.mem_cons_self _ _) ha
    | cons d bs =>
      simp only [List.cons_append] at h
      rcases List.cons_prefix_cons.mp h with ⟨rfl, h2⟩
      rw [ih bs (fun hm => ha (List.mem_cons_of_mem _ hm))
        (fun hm => hb (List.mem_cons_of_mem _ hm)) h2]

theorem wf_file_cons (n : GoStr) (s : Nat) (es : List FSEntry)
    (h : wfFS (FSEntry.file n s :: es) = true) :
    n ≠ [] ∧ '/' ∉ n ∧ n ≠ ['.'] ∧ n ∉ es.map entryName ∧ wfFS es = true := by
  rw [wfFS] at h
  simp only [Bool.and_eq_true, Bool.not_eq_true'] at h
  obtain ⟨⟨⟨⟨h1, h2⟩, h3⟩, h4⟩, h5⟩ := h
  refine ⟨?_, ?_, ?_, ?_, h5⟩
  · intro he; rw [he] at h1; simp at h1
  · intro hm; rw [← List.elem_iff] at hm; simp only [List.contains] at h2; rw [hm] at h2; cases h2
  · intro he; rw [he] at h3; simp at h3
  · intro hm; rw [← List.elem_iff] at hm; simp only [List.contains] at h4; rw [hm] at h4; cases h4

theorem wf_dir_cons (n : GoStr) (cs es : List FSEntry)
    (h : wfFS (FSEntry.dir n cs :: es) = true) :
    n ≠ [] ∧ '/' ∉ n ∧ n ≠ ['.'] ∧ n ∉ es.map entryName ∧
      wfFS cs = true ∧ wfFS es = true := by
  rw [wfFS] at h
  simp only [Bool.and_eq_true, Bool.not_eq_true'] at h
  obtain ⟨⟨⟨⟨⟨h1, h2⟩, h3⟩, h4⟩, h5⟩, h6⟩ := h
  refine ⟨?_, ?_, ?_, ?_, h5, h6⟩
  · intro he; rw [he] at h1; simp at h1
  · intro hm; rw [← List.elem_iff] at hm; simp only [List.contains] at h2; rw [hm] at h2; cases h2
  · intro he; rw [he] at h3; simp at h3
  · intro hm; rw [← List.elem_iff] at hm; simp only [List.contains] at h4; rw [hm] at h4; cases h4

theorem wf_names (es : List FSEntry) (h : wfFS es = true) :
    ∀ m ∈ es.map entryName, '/' ∉ m ∧ m ≠ [] ∧ m ≠ ['.'] := by
  induction es using fsListInduction with
  | h0 => simp
  | hf n s es2 ih =>
    intro m hm
    obtain ⟨h1, h2, h3, h4, h5⟩ := wf_file_cons n s es2 h
    rcases List.mem_cons.mp hm with rfl | hm2
    · exact ⟨h2, h1, h3⟩
    · exact ih h5 m hm2
  | hd n cs es2 ihcs ihes =>
    intro m hm
    obtain ⟨h1, h2, h3, h4, h5, h6⟩ := wf_dir_cons n cs es2 h
    rcases List.mem_cons.mp hm with rfl | hm2
    · exact ⟨h2, h1, h3⟩
    · exact ihes h6 m hm2

theorem pathsOfL_nil : pathsOfL [] = [] := by
  simp [pathsOfL, allNodesL_nil]

theorem pathsOfL_cons (x : FileNode) (xs : List FileNode) :
    pathsOfL (x :: xs) = (allNodes x).map FileNode.relPath ++ pathsOfL xs := by
  simp [pathsOfL, allNodesL_cons]

theorem mem_pathsOfL_sortNodes (l : List FileNode) (p : GoStr) :
    p ∈ pathsOfL (sortNodes l) ↔ p ∈ pathsOfL l := by
  simp only [pathsOfL, List.mem_map]
  constructor <;> rintro ⟨node, hm, rfl⟩
  · exact ⟨node, (mem_allNodesL_sortNodes _ _).mp hm, rfl⟩
  · exact ⟨node, (mem_allNodesL_sortNodes _ _).mpr hm, rfl⟩

theorem subpaths_shape : ∀ es pre (q : GoStr) (e : FSEntry),
    (q, e) ∈ subpaths pre es →
    ∃ m t, q = pre ++ m ++ t ∧ m ∈ es.map entryName ∧
      (t = [] ∨ ∃ u, t = '/' :: u) := by
  refine fsListInduction
    (fun es => ∀ pre (q : GoStr) (e : FSEntry), (q, e) ∈ subpaths pre es →
      ∃ m t, q = pre ++ m ++ t ∧ m ∈ es.map entryName ∧
        (t = [] ∨ ∃ u, t = '/' :: u)) ?_ ?_ ?_
  · intro pre q e h
    rw [subpaths] at h
    cases h
  · intro n s es ih pre q e h
    rw [subpaths] at h
    rcases List.mem_cons.mp h with he | h2
    · refine ⟨n, [], ?_, by simp [entryName], Or.inl rfl⟩
      rw [List.append_nil]
      exact congrArg Prod.fst he
    · obtain ⟨m, t, h3, h4, h5⟩ := ih pre q e h2
      exact ⟨m, t, h3, by simp [h4], h5⟩
  · intro n cs es ihcs ihes pre q e h
    rw [subpaths] at h
    rcases List.mem_cons.mp h with he | h2
    · refine ⟨n, [], ?_, by simp [entryName], Or.inl rfl⟩
      rw [List.append_nil]
      exact congrArg Prod.fst he
    · rcases List.mem_append.mp h2 with h3 | h3
      · obtain ⟨m, t, h4, h5, h6⟩ := ihcs _ q e h3
        refine ⟨n, '/' :: (m ++ t), ?_, by simp [entryName], Or.inr ⟨m ++ t, rfl⟩⟩
        rw [h4]
        simp
      · obtain ⟨m, t, h4, h5, h6⟩ := ihes pre q e h3
        exact ⟨m, t, h4, by simp [h5], h6⟩

theorem walkList_shape (gi ci : Option Matcher) : ∀ es pre (p : GoStr),
    p ∈ pathsOfL (walkList gi ci pre es) →
    ∃ m t, p = pre ++ m ++ t ∧ m ∈ es.map entryName ∧
      (t = [] ∨ ∃ u, t = '/' :: u) := by
  refine fsListInduction
    (fun es => ∀ pre (p : GoStr), p ∈ pathsOfL (walkList gi ci pre es) →
      ∃ m t, p = pre ++ m ++ t ∧ m ∈ es.map entryName ∧
        (t = [] ∨ ∃ u, t = '/' :: u)) ?_ ?_ ?_
  · intro pre p h
    rw [walkList, pathsOfL_nil] at h
    cases h
  · intro n s es ih pre p h
    rw [walkList, pathsOfL_cons] at h
    rcases List.mem_append.mp h with h1 | h1
    · rw [allNodes_def, allNodesL_nil] at h1
      simp only [List.map_cons, List.map_nil, FileNode.relPath] at h1
      rcases List.mem_singleton.mp h1 with rfl
      exact ⟨n, [], by rw [List.append_nil], by simp [entryName], Or.inl rfl⟩
    · obtain ⟨m, t, h3, h4, h5⟩ := ih pre p h1
      exact ⟨m, t, h3, by simp [h4], h5⟩
  · intro n cs es ihcs ihes pre p h
    rw [walkList] at h
    by_cases hig : (matchesOpt gi (pre ++ n ++ ['/'])
        || matchesOpt ci (pre ++ n ++ ['/'])) = true
    · rw [if_pos hig] at h
      obtain ⟨m, t, h3, h4, h5⟩ := ihes pre p h
      exact ⟨m, t, h3, by simp [h4], h5⟩
    · rw [if_neg hig, pathsOfL_cons] at h
      rcases List.mem_append.mp h with h1 | h1
      · rw [allNodes_def] at h1
        simp only [List.map_cons, FileNode.relPath] at h1
        rcases List.mem_cons.mp h1 with rfl | h2
        · exact ⟨n, [], by rw [List.append_nil], by simp [entryName], Or.inl rfl⟩
        · have h3 : p ∈ pathsOfL (sortNodes (walkList gi ci (pre ++ n ++ ['/']) cs)) := by
            simpa [pathsOfL] using h2
          rw [mem_pathsOfL_sortNodes] at h3
          obtain ⟨m, t, h4, h5, h6⟩ := ihcs _ p h3
          refine ⟨n, '/' :: (m ++ t), ?_, by simp [entryName], Or.inr ⟨m ++ t, rfl⟩⟩
          rw [h4]
          simp
      · obtain ⟨m, t, h3, h4, h5⟩ := ihes pre p h1
        exact ⟨m, t, h3, by simp [h4], h5⟩

theorem blocked_by_head (pre m n0 : GoStr) (t s : List Char)
    (hm : '/' ∉ m) (hn0 : '/' ∉ n0) (hmn : m ≠ n0)
    (ht : t = [] ∨ ∃ u, t = '/' :: u) (hs : s = [] ∨ ∃ v, s = '/' :: v) :
    ¬ (pre ++ m ++ (t ++ ['/']) <+: pre ++ n0 ++ s) ∧
      pre ++ n0 ++ s ≠ pre ++ m ++ t := by
  constructor
  · intro hpre
    rw [List.append_assoc pre m, List.append_assoc pre n0] at hpre
    have hc := (List.prefix_append_right_inj pre).mp hpre
    rcases ht with rfl | ⟨u, rfl⟩
    · rw [List.nil_append] at hc
      rcases hs with rfl | ⟨v, rfl⟩
      · rw [List.append_nil] at hc
        exact seg_slash_not_prefix m n0 [] hn0 (by simpa using hc)
      · exact hmn (seg_slash_inj m n0 [] v hm hn0 (by simpa using hc))
    · have hc2 : m ++ '/' :: (u ++ ['/']) <+: n0 ++ s := by
        simpa using hc
      rcases hs with rfl | ⟨v, rfl⟩
      · rw [List.append_nil] at hc2
        exact seg_slash_not_prefix m n0 (u ++ ['/']) hn0 hc2
      · exact hmn (seg_slash_inj m n0 (u ++ ['/']) v hm hn0 hc2)
  · intro he
    rw [List.append_assoc pre n0, List.append_assoc pre m] at he
    have hc := List.append_cancel_left he
    rcases ht with rfl | ⟨u, rfl⟩
    · rw [List.append_nil] at hc
      rcases hs with rfl | ⟨v, rfl⟩
      · rw [List.append_nil] at hc
        exact hmn hc.symm
      · exact hm (by rw [hc.symm]; simp)
    · rcases hs with rfl | ⟨v, rfl⟩
      · rw [List.append_nil] at hc
        exact hn0 (by rw [hc]; simp)
      · have hpre2 : n0 ++ '/' :: v <+: m ++ '/' :: u := by
          rw [hc]
        exact hmn (seg_slash_inj n0 m v u hn0 hm hpre2).symm

theorem deeper_blocked (pre n0 : GoStr) (w : List Char) :
    ¬ (pre ++ n0 ++ ('/' :: w) <+: pre ++ n0) ∧
      pre ++ n0 ≠ pre ++ n0 ++ ('/' :: w) := by
  constructor
  · intro h
    have := h.length_le
    simp [List.length_append] at this
  · intro h
    have := congrArg List.length h
    simp [List.length_append] at this

theorem walkList_excludes_ignored (gi ci : Option Matcher) :
    ∀ es pre, wfFS es = true →
    ∀ (q n : GoStr) (cs : List FSEntry),
      (q, FSEntry.dir n cs) ∈ subpaths pre es →
      ignDir gi ci q = true →
      ∀ p ∈ pathsOfL (walkList gi ci pre es), ¬ (q ++ ['/'] <+: p) ∧ p ≠ q := by
  refine fsListInduction
    (fun es => ∀ pre, wfFS es = true →
      ∀ (q n : GoStr) (cs : List FSEntry),
        (q, FSEntry.dir n cs) ∈ subpaths pre es →
        ignDir gi ci q = true →
        ∀ p ∈ pathsOfL (walkList gi ci pre es), ¬ (q ++ ['/'] <+: p) ∧ p ≠ q)
    ?_ ?_ ?_
  · intro pre _ q n cs hq _ p hp
    rw [subpaths] at hq
    cases hq
  · intro n0 s es2 ih pre hwf q n cs hq hig p hp
    obtain ⟨h1, h2, h3, h4, h5⟩ := wf_file_cons n0 s es2 hwf
    rw [subpaths] at hq
    rcases List.mem_cons.mp hq with he | hq2
    · injection he with he1 he2
      simp at he2
    rw [walkList, pathsOfL_cons, allNodes_def, allNodesL_nil] at hp
    simp only [List.map_cons, List.map_nil, FileNode.relPath] at hp
    rcases List.mem_append.mp hp with hp1 | hp1
    · rcases List.mem_singleton.mp hp1 with rfl
      obtain ⟨m, t, rfl, hm, htsh⟩ := subpaths_shape es2 pre q _ hq2
      obtain ⟨hmsl, -, -⟩ := wf_names es2 h5 m hm
      have hmn0 : m ≠ n0 := fun he2 => h4 (he2 ▸ hm)
      have hb := blocked_by_head pre m n0 t [] hmsl h2 hmn0 htsh (Or.inl rfl)
      constructor
      · intro hpre
        exact hb.1 (by simpa only [List.append_assoc, List.append_nil] using hpre)
      · intro he2
        exact hb.2 (by simpa only [List.append_nil] using he2)
    · exact ih pre h5 q n cs hq2 hig p hp1
  · intro n0 cs0 es2 ihcs ihes pre hwf q n cs hq hig p hp
    obtain ⟨h1, h2, h3, h4, h5, h6⟩ := wf_dir_cons n0 cs0 es2 hwf
    rw [subpaths] at hq
    rw [walkList] at hp
    rcases List.mem_cons.mp hq with he | hq2
    · injection he with he1 he2
      subst he1
      have hcond : (matchesOpt gi (pre ++ n0 ++ ['/'])
          || matchesOpt ci (pre ++ n0 ++ ['/'])) = true := by
        rw [ignDir] at hig
        exact hig
      rw [if_pos hcond] at hp
      obtain ⟨m, t, rfl, hm, htsh⟩ := walkList_shape gi ci es2 pre p hp
      obtain ⟨hmsl, -, -⟩ := wf_names es2 h6 m hm
      have hmn0 : m ≠ n0 := fun he3 => h4 (he3 ▸ hm)
      have hb := blocked_by_head pre n0 m [] t h2 hmsl
        (fun he3 => hmn0 he3.symm) (Or.inl rfl) htsh
      constructor
      · intro hpre
        exact hb.1 (by simpa only [List.nil_append] using hpre)
      · intro he3
        exact hb.2 (by simpa only [List.append_nil] using he3)
    rcases List.mem_append.mp hq2 with hq3 | hq3
    · -- the ignored directory lies inside the subtree of n0
      obtain ⟨m2, t2, rfl, hm2, ht2⟩ := subpaths_shape cs0 (pre ++ n0 ++ ['/']) q _ hq3
      by_cases hcond : (matchesOpt gi (pre ++ n0 ++ ['/'])
          || matchesOpt ci (pre ++ n0 ++ ['/'])) = true
      · rw [if_pos hcond] at hp
        obtain ⟨m, t, rfl, hm, htsh⟩ := walkList_shape gi ci es2 pre p hp
        obtain ⟨hmsl, -, -⟩ := wf_names es2 h6 m hm
        have hmn0 : m ≠ n0 := fun he3 => h4 (he3 ▸ hm)
        have hb := blocked_by_head pre n0 m ('/' :: (m2 ++ t2)) t h2 hmsl
          (fun he3 => hmn0 he3.symm) (Or.inr ⟨m2 ++ t2, rfl⟩) htsh
        constructor
        · intro hpre
          exact hb.1 (by simpa only [List.append_assoc, List.cons_append,
            List.singleton_append, List.nil_append] using hpre)
        · intro he3
          exact hb.2 (by simpa only [List.append_assoc, List.cons_append,
            List.singleton_append, List.nil_append] using he3)
      · rw [if_neg hcond, pathsOfL_cons, allNodes_def] at hp
        simp only [List.map_cons, FileNode.relPath] at hp
        rcases List.mem_append.mp hp with hp1 | hp1
        · rcases List.mem_cons.mp hp1 with rfl | hp2
          · constructor
            · intro hpre
              refine (deeper_blocked pre n0 (m2 ++ (t2 ++ ['/']))).1 ?_
              simpa only [List.append_assoc, List.cons_append,
                List.singleton_append, List.nil_append] using hpre
            · intro he3
              refine (deeper_blocked pre n0 (m2 ++ t2)).2 ?_
              simpa only [List.append_assoc, List.cons_append,
                List.singleton_append, List.nil_append] using he3
          · have hp3 : p ∈ pathsOfL (sortNodes
                (walkList gi ci (pre ++ n0 ++ ['/']) cs0)) := hp2
            rw [mem_pathsOfL_sortNodes] at hp3
            exact ihcs (pre ++ n0 ++ ['/']) h5 _ n cs hq3 hig p hp3
        · obtain ⟨m, t, rfl, hm, htsh⟩ := walkList_shape gi ci es2 pre p hp1
          obtain ⟨hmsl, -, -⟩ := wf_names es2 h6 m hm
          have hmn0 : m ≠ n0 := fun he3 => h4 (he3 ▸ hm)
          have hb := blocked_by_head pre n0 m ('/' :: (m2 ++ t2)) t h2 hmsl
            (fun he3 => hmn0 he3.symm) (Or.inr ⟨m2 ++ t2, rfl⟩) htsh
          constructor
          · intro hpre
            exact hb.1 (by simpa only [List.append_assoc, List.cons_append,
              List.singleton_append, List.nil_append] using hpre)
          · intro he3
            exact hb.2 (by simpa only [List.append_assoc, List.cons_append,
              List.singleton_append, List.nil_append] using he3)
    · -- the ignored directory lies among the later siblings
      obtain ⟨m2, t2, rfl, hm2, ht2⟩ := subpaths_shape es2 pre q _ hq3
      obtain ⟨hm2sl, -, -⟩ := wf_names es2 h6 m2 hm2
      have hm2n0 : m2 ≠ n0 := fun he3 => h4 (he3 ▸ hm2)
      by_cases hcond : (matchesOpt gi (pre ++ n0 ++ ['/'])
          || matchesOpt ci (pre ++ n0 ++ ['/'])) = true
      · rw [if_pos hcond] at hp
        exact ihes pre h6 _ n cs hq3 hig p hp
      · rw [if_neg hcond, pathsOfL_cons, allNodes_def] at hp
        simp only [List.map_cons, FileNode.relPath] at hp
        rcases List.mem_append.mp hp with hp1 | hp1
        · rcases List.mem_cons.mp hp1 with rfl | hp2
          · have hb := blocked_by_head pre m2 n0 t2 [] hm2sl h2 hm2n0 ht2 (Or.inl rfl)
            constructor
            · intro hpre
              exact hb.1 (by simpa only [List.append_assoc, List.append_nil] using hpre)
            · intro he3
              exact hb.2 (by simpa only [List.append_nil] using he3)
          · have hp3 : p ∈ pathsOfL (sortNodes
                (walkList gi ci (pre ++ n0 ++ ['/']) cs0)) := hp2
            rw [mem_pathsOfL_sortNodes] at hp3
            obtain ⟨mp, tp, rfl, -, -⟩ :=
              walkList_shape gi ci cs0 (pre ++ n0 ++ ['/']) p hp3
            have hb := blocked_by_head pre m2 n0 t2 ('/' :: (mp ++ tp)) hm2sl h2
              hm2n0 ht2 (Or.inr ⟨mp ++ tp, rfl⟩)
            constructor
            · intro hpre
              exact hb.1 (by simpa only [List.append_assoc, List.cons_append,
                List.singleton_append, List.nil_append] using hpre)
            · intro he3
              exact hb.2 (by simpa only [List.append_assoc, List.cons_append,
                List.singleton_append, List.nil_append] using he3)
        · exact ihes pre h6 _ n cs hq3 hig p hp1

/-- C1: pruning is transitive — if a directory inside the scanned root is
matched by the version-control or custom ignore matcher, no entry inside
that directory contributes a node anywhere in the tree `BuildTree`
returns. -/
theorem buildTree_prunes_ignored_subtrees (gi ci : Option Matcher)
    (rootName : GoStr) (es : List FSEntry) (hwf : wfFS es = true)
    (q n : GoStr) (cs : List FSEntry)
    (hq : (q, FSEntry.dir n cs) ∈ subpaths [] es)
    (hign : ignDir gi ci q = true) :
    ∀ pe ∈ subpaths (q ++ ['/']) cs,
      pe.1 ∉ pathsOfL (buildTree gi ci rootName es) := by
  intro pe hpe hmem
  obtain ⟨p1, e1⟩ := pe
  obtain ⟨m, t, hform, -, -⟩ := subpaths_shape cs (q ++ ['/']) p1 e1 hpe
  have hqp : q ++ ['/'] <+: p1 := by
    refine ⟨m ++ t, ?_⟩
    rw [hform]
    simp [List.append_assoc]
  rw [buildTree, pathsOfL_cons, pathsOfL_nil, List.append_nil,
    allNodes_def] at hmem
  simp only [List.map_cons, FileNode.relPath] at hmem
  rcases List.mem_cons.mp hmem with he | hmem2
  · have hsl : '/' ∈ p1 :=
      hqp.subset (List.mem_append.mpr (Or.inr (List.mem_singleton.mpr rfl)))
    rw [he] at hsl
    exact absurd (List.mem_singleton.mp hsl) (by decide)
  · have hps : p1 ∈ pathsOfL (walkList gi ci [] es) :=
      (mem_pathsOfL_sortNodes _ _).mp hmem2
    exact (walkList_excludes_ignored gi ci es [] hwf q n cs hq hign p1 hps).1 hqp

/-- C1 witness: a gitignored directory `a` holding a file `x`; `a/x` gets
no node. -/
theorem buildTree_prunes_ignored_subtrees_witness :
    wfFS [FSEntry.dir ['a'] [FSEntry.file ['x'] 1]] = true ∧
    ((['a'], FSEntry.dir ['a'] [FSEntry.file ['x'] 1])
      ∈ subpaths [] [FSEntry.dir ['a'] [FSEntry.file ['x'] 1]]) ∧
    ignDir (some (fun p => p == ['a', '/'])) none ['a'] = true ∧
    ∀ pe ∈ subpaths (['a'] ++ ['/']) [FSEntry.file ['x'] 1],
      pe.1 ∉ pathsOfL (buildTree (some (fun p => p == ['a', '/'])) none ['r']
        [FSEntry.dir ['a'] [FSEntry.file ['x'] 1]]) := by
  refine ⟨?_, ?_, by decide, ?_⟩
  · simp +decide [wfFS, entryName]
  · simp [subpaths]
  · exact buildTree_prunes_ignored_subtrees (some (fun p => p == ['a', '/']))
      none ['r'] [FSEntry.dir ['a'] [FSEntry.file ['x'] 1]]
      (by simp +decide [wfFS, entryName]) ['a'] ['a'] [FSEntry.file ['x'] 1]
      (by simp [subpaths]) (by decide)

/-- C4 counterexample: with a matcher that matches the directory `sub/`,
`BuildTree` produces only the root node — no node with the ignored flag is
recorded for `sub` (the callback returns `fs.SkipDir` before node
creation), contradicting the claim that the ignored directory appears as a
flagged leaf marker. -/
theorem ignored_dir_has_no_node_counterexample :
    ignDir (some (fun p => p == ['s', 'u', 'b', '/'])) none ['s', 'u', 'b'] = true ∧
    pathsOfL (buildTree (some (fun p => p == ['s', 'u', 'b', '/'])) none ['r']
      [FSEntry.dir ['s', 'u', 'b'] []]) = [['.']] := by
  refine ⟨by decide, ?_⟩
  simp +decide [buildTree, walkList, sortNodes, sortBy, pathsOfL,
    allNodesL_cons, allNodesL_nil, allNodes_def, matchesOpt, insertBy,
    FileNode.relPath]

/-- C4 as amended: an ignored directory is skipped entirely before any node
is created for it, so neither the directory itself nor anything below it is
recorded in the returned tree (it does not even appear as a flagged leaf
marker). -/
theorem buildTree_ignored_dir_not_recorded (gi ci : Option Matcher)
    (rootName : GoStr) (es : List FSEntry) (hwf : wfFS es = true)
    (q n : GoStr) (cs : List FSEntry)
    (hq : (q, FSEntry.dir n cs) ∈ subpaths [] es)
    (hign : ignDir gi ci q = true) :
    q ∉ pathsOfL (buildTree gi ci rootName es) := by
  intro hmem
  rw [buildTree, pathsOfL_cons, pathsOfL_nil, List.append_nil,
    allNodes_def] at hmem
  simp only [List.map_cons, FileNode.relPath] at hmem
  rcases List.mem_cons.mp hmem with he | hmem2
  · obtain ⟨m, t, hform, hm, htsh⟩ := subpaths_shape es [] q _ hq
    obtain ⟨hmsl, hmne, hmdot⟩ := wf_names es hwf m hm
    rw [List.nil_append] at hform
    rcases htsh with rfl | ⟨u, rfl⟩
    · rw [List.append_nil] at hform
      rw [hform] at he
      exact hmdot he
    · rw [hform] at he
      have : '/' ∈ (['.'] : GoStr) := by
        rw [← he]
        simp
      exact absurd (List.mem_singleton.mp this) (by decide)
  · have hps : q ∈ pathsOfL (walkList gi ci [] es) :=
      (mem_pathsOfL_sortNodes _ _).mp hmem2
    exact (walkList_excludes_ignored gi ci es [] hwf q n cs hq hign q hps).2 rfl

/-- C4 amended-claim witness: the ignored directory `a` itself gets no
node. -/
theorem buildTree_ignored_dir_not_recorded_witness :
    wfFS [FSEntry.dir ['a'] [FSEntry.file ['x'] 1]] = true ∧
    ((['a'], FSEntry.dir ['a'] [FSEntry.file ['x'] 1])
      ∈ subpaths [] [FSEntry.dir ['a'] [FSEntry.file ['x'] 1]]) ∧
    ignDir (some (fun p => p == ['a', '/'])) none ['a'] = true ∧
    ['a'] ∉ pathsOfL (buildTree (some (fun p => p == ['a', '/'])) none ['r']
      [FSEntry.dir ['a'] [FSEntry.file ['x'] 1]]) := by
  refine ⟨?_, ?_, by decide, ?_⟩
  · simp +decide [wfFS, entryName]
  · simp [subpaths]
  · exact buildTree_ignored_dir_not_recorded (some (fun p => p == ['a', '/']))
      none ['r'] [FSEntry.dir ['a'] [FSEntry.file ['x'] 1]]
      (by simp +decide [wfFS, entryName]) ['a'] ['a'] [FSEntry.file ['x'] 1]
      (by simp [subpaths]) (by decide)
